import Mathlib

/-!
Shallow embedding of `src/generate_example_data/create_minimal_fasta.py`.

Strings are modelled through their character lists (`String.mk` / `String.data`)
and the Python string primitives used by the script (`str.strip`, `str.rstrip`,
`str.split`, `str.startswith`, `str.endswith`, `int()`, `float()`) are
re-implemented as structural recursions, so every definition evaluates inside
the kernel.  Python float values are idealised as exact rationals: the model
covers finite decimal literals (optional sign, digits, fraction, exponent);
`inf`, `nan` and underscore digit grouping are outside the model.  Python code
that can raise an uncaught exception or call `sys.exit` is modelled with
`Except String`; file contents are lists of lines.
-/

/-- Characters treated as whitespace by the Python `str.strip` family:
space, tab, newline, carriage return, vertical tab, form feed. -/
def pyIsSpace (c : Char) : Bool :=
  c = ' ' || c = '\t' || c = '\n' || c = '\x0d' || c = '\x0b' || c = '\x0c'

/-- Python `str.rstrip()`: drop all trailing whitespace characters. -/
def pyRstrip (s : String) : String :=
  String.mk (s.data.reverse.dropWhile pyIsSpace).reverse

/-- Python `str.strip()`: drop leading and trailing whitespace characters. -/
def pyStrip (s : String) : String :=
  String.mk ((s.data.dropWhile pyIsSpace).reverse.dropWhile pyIsSpace).reverse

/-- Helper for `pySplit`: the current piece is accumulated in reverse. -/
def pySplitAux (sep : Char) : List Char → List Char → List String
  | [], cur => [String.mk cur.reverse]
  | c :: cs, cur =>
    if c = sep then String.mk cur.reverse :: pySplitAux sep cs []
    else pySplitAux sep cs (c :: cur)

/-- Python `str.split(sep)` for a one-character separator: empty pieces are
kept, and splitting the empty string yields `[""]`. -/
def pySplit (sep : Char) (s : String) : List String :=
  pySplitAux sep s.data []

/-- Helper for `pyWords`: the current word is accumulated in reverse. -/
def pyWordsAux : List Char → List Char → List String
  | [], [] => []
  | [], w => [String.mk w.reverse]
  | c :: cs, w =>
    if pyIsSpace c then
      if w = [] then pyWordsAux cs [] else String.mk w.reverse :: pyWordsAux cs []
    else pyWordsAux cs (c :: w)

/-- Python `str.split()` with no separator: split on whitespace runs,
dropping empty pieces. -/
def pyWords (s : String) : List String :=
  pyWordsAux s.data []

/-- Numeric value of a list of decimal digit characters. -/
def digitsVal (ds : List Char) : ℕ :=
  ds.foldl (fun acc d => 10 * acc + (d.toNat - 48)) 0

/-- Recognises a list made only of decimal digit characters. -/
def allDigits (ds : List Char) : Bool :=
  ds.all (fun c => 48 ≤ c.toNat && c.toNat ≤ 57)

/-- A non-empty all-digit character run, as a natural number. -/
def digitsNat (ds : List Char) : Option ℕ :=
  if !ds.isEmpty && allDigits ds then some (digitsVal ds) else none

/-- Python `int(str)`: optional surrounding whitespace, optional sign, then a
non-empty run of decimal digits (underscore grouping is outside the model). -/
def pyInt (s : String) : Option ℤ :=
  match (pyStrip s).data with
  | '+' :: ds => (digitsNat ds).map (fun n => (n : ℤ))
  | '-' :: ds => (digitsNat ds).map (fun n => -(n : ℤ))
  | ds => (digitsNat ds).map (fun n => (n : ℤ))

/-- Splits a character list at the first character satisfying `p`, if any. -/
def splitFirst (p : Char → Bool) : List Char → List Char × Option (List Char)
  | [] => ([], none)
  | c :: cs =>
    if p c then ([], some cs)
    else
      let r := splitFirst p cs
      (c :: r.1, r.2)

/-- Mantissa of a Python float literal: `digits`, `digits.`, `digits.digits`
or `.digits`. -/
def parseMantissa (cs : List Char) : Option ℚ :=
  match splitFirst (fun c => c = '.') cs with
  | (ip, none) => (digitsNat ip).map (fun n => (n : ℚ))
  | (ip, some fp) =>
    if (!ip.isEmpty || !fp.isEmpty) && allDigits ip && allDigits fp then
      some ((digitsVal ip : ℚ) + (digitsVal fp : ℚ) / (10 : ℚ) ^ fp.length)
    else none

/-- Signed non-empty digit run for the exponent part of a float literal
(no inner whitespace allowed). -/
def parseExpInt (cs : List Char) : Option ℤ :=
  match cs with
  | '+' :: ds => (digitsNat ds).map (fun n => (n : ℤ))
  | '-' :: ds => (digitsNat ds).map (fun n => -(n : ℤ))
  | ds => (digitsNat ds).map (fun n => (n : ℤ))

/-- Unsigned part of `pyFloat`: a mantissa with an optional exponent part. -/
def pyFloatUnsigned (cs : List Char) : Option ℚ :=
  match splitFirst (fun c => c = 'e' || c = 'E') cs with
  | (mant, none) => parseMantissa mant
  | (mant, some ecs) =>
    match parseMantissa mant, parseExpInt ecs with
    | some m, some e => some (m * (10 : ℚ) ^ e)
    | _, _ => none

/-- Python `float(str)` restricted to finite decimal literals, idealised as
exact rationals. -/
def pyFloat (s : String) : Option ℚ :=
  match (pyStrip s).data with
  | '+' :: cs => pyFloatUnsigned cs
  | '-' :: cs => (pyFloatUnsigned cs).map (fun v => -v)
  | cs => pyFloatUnsigned cs

/-- Python `str.startswith(c)` for a single character. -/
def pyStartsWith (c : Char) (s : String) : Bool :=
  match s.data with
  | [] => false
  | d :: _ => d = c

/-- Python `str.endswith(".dia")`, used to recognise sample columns. -/
def endsWithDia (s : String) : Bool :=
  List.isSuffixOf (String.data ".dia") s.data

/-- Python `list.index`: position of the first occurrence, if any
(`None` models the `ValueError`). -/
def listIndexOf (l : List String) (x : String) : Option ℕ :=
  match l with
  | [] => none
  | a :: as => if a = x then some 0 else (listIndexOf as x).map (· + 1)

/-- Python `"".join`. -/
def strJoin : List String → String
  | [] => ""
  | s :: rest => s ++ strJoin rest

/-- Python slice `l[:n]` for an integer `n`: a negative `n` counts from the
end of the list, clamped at zero. -/
def pySliceTo {α : Type} (n : ℤ) (l : List α) : List α :=
  if 0 ≤ n then l.take n.toNat else l.take ((l.length : ℤ) + n).toNat

/-- Column positions found in the header line of the protein matrix
(lines 43 to 50 of the script). -/
structure MatrixCols where
  proteinCol : ℕ
  nSeqCol : ℕ
  intensityCols : List ℕ
deriving DecidableEq

/-- One element of the `protein_data` list: the tuple
`(protein_id, mean_intensity, n_sequences)` appended at line 78. -/
structure Row where
  group : String
  mean : ℚ
  nseq : ℤ
deriving DecidableEq

/-- Header processing of `parse_protein_matrix` (lines 43 to 54): locate
`Protein.Group` and `N.Sequences` by name (an absent name raises `ValueError`),
collect the positions of all `.dia`-suffixed sample columns, and abort when
there are none. -/
def parseHeader (headerLine : String) : Except String MatrixCols :=
  let header := pySplit '\t' (pyStrip headerLine)
  match listIndexOf header "Protein.Group" with
  | none => Except.error "ValueError: Protein.Group is not in list"
  | some p =>
    match listIndexOf header "N.Sequences" with
    | none => Except.error "ValueError: N.Sequences is not in list"
    | some nsc =>
      let icols := (header.enum.filter (fun x => endsWithDia x.2)).map Prod.fst
      if icols = [] then Except.error "No .dia sample columns"
      else Except.ok ⟨p, nsc, icols⟩

/-- Intensity of one sample column (lines 70 to 74): a missing field
(`IndexError`), an empty field, or a field that `float()` rejects
(`ValueError`) all contribute `0`. -/
def readIntensity (fields : List String) (i : ℕ) : ℚ :=
  match fields.get? i with
  | none => 0
  | some s =>
    if s = "" then 0
    else
      match pyFloat s with
      | none => 0
      | some v => v

/-- Mean intensity of a row (line 76): the arithmetic mean over all sample
columns, `0` when there are none. -/
def rowMean (fields : List String) (icols : List ℕ) : ℚ :=
  let vals := icols.map (readIntensity fields)
  if vals = [] then 0 else vals.sum / (vals.length : ℚ)

/-- Body of the data-row loop of `parse_protein_matrix` (lines 58 to 78) on
the already split fields: reading a missing protein or `N.Sequences` field
raises `IndexError`, a non-integer `N.Sequences` raises `ValueError`, a row
below the peptide threshold is skipped (`Except.ok none`), and otherwise the
row is kept with its mean intensity. -/
def parseRowFields (cols : MatrixCols) (minp : ℤ) (fields : List String) :
    Except String (Option Row) :=
  match fields.get? cols.proteinCol with
  | none => Except.error "IndexError: protein column"
  | some pid =>
    match fields.get? cols.nSeqCol with
    | none => Except.error "IndexError: N.Sequences column"
    | some ns =>
      match pyInt ns with
      | none => Except.error "ValueError: invalid literal for int"
      | some n =>
        if n < minp then Except.ok none
        else Except.ok (some ⟨pid, rowMean fields cols.intensityCols, n⟩)

/-- One data line of the matrix: `line.strip().split('\t')` then the row
body. -/
def parseRow (cols : MatrixCols) (minp : ℤ) (line : String) :
    Except String (Option Row) :=
  parseRowFields cols minp (pySplit '\t' (pyStrip line))

/-- The data-row loop of `parse_protein_matrix`: rows kept in file order,
the first uncaught exception aborting the run. -/
def parseRows (cols : MatrixCols) (minp : ℤ) : List String → Except String (List Row)
  | [] => Except.ok []
  | l :: ls =>
    match parseRow cols minp l with
    | Except.error e => Except.error e
    | Except.ok none => parseRows cols minp ls
    | Except.ok (some r) =>
      match parseRows cols minp ls with
      | Except.error e => Except.error e
      | Except.ok rs => Except.ok (r :: rs)

/-- Ordering that models line 83,
`protein_data.sort(key=lambda x: x[1], reverse=True)`.  CPython guarantees a
stable sort, and `reverse=True` keeps equal keys in their original relative
order; so on rows tagged with their original position the sort result is the
unique ordering by this total order: larger mean first, original position
order between equal means. -/
def rowSelLE (a b : ℕ × Row) : Prop :=
  b.2.mean < a.2.mean ∨ (a.2.mean = b.2.mean ∧ a.1 ≤ b.1)

instance : DecidableRel rowSelLE := fun _ _ => instDecidableOr

instance : IsTotal (ℕ × Row) rowSelLE where
  total a b := by
    rcases lt_trichotomy a.2.mean b.2.mean with h | h | h
    · exact Or.inr (Or.inl h)
    · rcases Nat.le_total a.1 b.1 with hi | hi
      · exact Or.inl (Or.inr ⟨h, hi⟩)
      · exact Or.inr (Or.inr ⟨h.symm, hi⟩)
    · exact Or.inl (Or.inl h)

instance : IsTrans (ℕ × Row) rowSelLE where
  trans a b c hab hbc := by
    rcases hab with h1 | ⟨h1, i1⟩
    · rcases hbc with h2 | ⟨h2, _⟩
      · exact Or.inl (h2.trans h1)
      · exact Or.inl (h2 ▸ h1)
    · rcases hbc with h2 | ⟨h2, i2⟩
      · exact Or.inl (by rw [h1]; exact h2)
      · exact Or.inr ⟨h1.trans h2, i1.trans i2⟩

/-- Sorting and selection step of `parse_protein_matrix` (lines 82 to 91):
rows tagged with their original position, stably sorted by descending mean
intensity, then truncated by `protein_data[:top_n]` when `top_n` is given,
is non-zero (Python truthiness) and less than the row count. -/
def selectedRows (rows : List Row) (top : Option ℤ) : List (ℕ × Row) :=
  let ranked := List.insertionSort rowSelLE rows.enum
  match top with
  | none => ranked
  | some n =>
    if n ≠ 0 ∧ n < (rows.length : ℤ) then pySliceTo n ranked else ranked

/-- Identifier expansion of `parse_protein_matrix` (lines 94 to 98): split
every kept group on `;`, strip each piece, and put every piece into a set. -/
def expandIds (sel : List (ℕ × Row)) : Finset String :=
  (sel.flatMap (fun r => (pySplit ';' r.2.group).map pyStrip)).toFinset

/-- The whole of `parse_protein_matrix`: header processing on the first line
(`readline()` gives `""` on an empty file), the row loop on the remaining
lines, then sorting, truncation and identifier expansion. -/
def parse_protein_matrix (lines : List String) (top : Option ℤ) (minp : ℤ) :
    Except String (Finset String) :=
  match parseHeader (lines.head?.getD "") with
  | Except.error e => Except.error e
  | Except.ok cols =>
    match parseRows cols minp lines.tail with
    | Except.error e => Except.error e
    | Except.ok rows => Except.ok (expandIds (selectedRows rows top))

/-- One entry of the `entries` dict of `extract_fasta_entries`:
`(protein_id, header, sequence)`. -/
abbrev FastaEntry := String × String × String

/-- Python dict assignment `entries[cid] = (hdr, seq)` on an association list
with unique keys: replace the value in place when the key is present, append
otherwise. -/
def insertEntry : List FastaEntry → String → String → String → List FastaEntry
  | [], cid, hdr, seq => [(cid, hdr, seq)]
  | e :: es, cid, hdr, seq =>
    if e.1 = cid then (cid, hdr, seq) :: es
    else e :: insertEntry es cid hdr seq

/-- Record finalisation of `extract_fasta_entries` (lines 128 to 131 and 146
to 149): when a record is open and its identifier is in the selected set,
store header and joined sequence and count the match in `found_count`. -/
def finalizeEntry (ids : Finset String) (cur : Option (String × String))
    (seq : List String) (es : List FastaEntry) (n : ℕ) : List FastaEntry × ℕ :=
  match cur with
  | none => (es, n)
  | some (cid, hdr) =>
    if cid ∈ ids then (insertEntry es cid hdr (strJoin seq), n + 1) else (es, n)

/-- Identifier extraction from a marker line (lines 137 to 141), applied to
the already `rstrip`-ed line: drop the leading `>`, split on `|`; with at
least two fields the identifier is the first whitespace token of the second
field, otherwise the first whitespace token of the whole remainder.  `none`
models the uncaught `IndexError` of `.split()[0]` on a whitespace-only
field. -/
def parseId (line : String) : Option String :=
  let rest := String.mk line.data.tail
  match pySplit '|' rest with
  | _ :: second :: _ => (pyWords second).head?
  | _ => (pyWords rest).head?

/-- The scan loop of `extract_fasta_entries` (lines 124 to 149): `cur` is the
open record (identifier and header line), `seq` its accumulated sequence
lines, `es` the entries stored so far and `n` the running `found_count`.
Every line is `rstrip`-ed first; a line then starting with `>` finalises the
open record and opens a new one, any other line is appended to the open
sequence. -/
def extractGo (ids : Finset String) :
    Option (String × String) → List String → List FastaEntry → ℕ →
    List String → Except String (List FastaEntry × ℕ)
  | cur, seq, es, n, [] => Except.ok (finalizeEntry ids cur seq es n)
  | cur, seq, es, n, l :: ls =>
    let line := pyRstrip l
    if pyStartsWith '>' line then
      let p := finalizeEntry ids cur seq es n
      match parseId line with
      | none => Except.error "IndexError: list index out of range"
      | some cid => extractGo ids (some (cid, line)) [] p.1 p.2 ls
    else
      extractGo ids cur (seq ++ [line]) es n ls

/-- The whole of `extract_fasta_entries`: scan all lines starting with no
open record, no stored entries and `found_count = 0`; the result carries the
final entry list and the final `found_count`. -/
def extract_fasta_entries (ids : Finset String) (lines : List String) :
    Except String (List FastaEntry × ℕ) :=
  extractGo ids none [] [] 0 lines

/-- Boolean code-point lexicographic order on character lists: the order
Python uses to compare strings. -/
def lexLeb : List Char → List Char → Bool
  | [], _ => true
  | _ :: _, [] => false
  | a :: as, b :: bs =>
    if a.toNat < b.toNat then true
    else if a.toNat = b.toNat then lexLeb as bs
    else false

/-- Python string comparison `a <= b`, by code points. -/
def strLe (a b : String) : Prop :=
  lexLeb a.data b.data = true

instance : DecidableRel strLe := fun a b =>
  inferInstanceAs (Decidable (lexLeb a.data b.data = true))

/-- Strict Python string comparison `a < b`. -/
def strLt (a b : String) : Prop :=
  strLe a b ∧ a ≠ b

/-- Sequence wrapping of the writer (lines 173 to 174): the successive slices
`sequence[i:i+60]` for `i` in `range(0, len(sequence), 60)`.  The fuel
argument starts at the sequence length, which bounds the number of slices. -/
def chunksGo (w : ℕ) : ℕ → List Char → List String
  | 0, _ => []
  | _ + 1, [] => []
  | fuel + 1, cs => String.mk (cs.take w) :: chunksGo w fuel (cs.drop w)

/-- All wrapped sequence lines of one record. -/
def wrap60 (s : String) : List String :=
  chunksGo 60 s.data.length s.data

/-- The whole of `write_minimal_fasta` (lines 168 to 174), as the list of
lines written to the output file: for each identifier in Python `sorted`
order, the stored header line then the wrapped sequence lines. -/
def write_minimal_fasta (entries : List FastaEntry) : List String :=
  (List.insertionSort strLe (entries.map Prod.fst)).flatMap (fun pid =>
    match entries.find? (fun e => e.1 == pid) with
    | some e => e.2.1 :: wrap60 e.2.2
    | none => [])

/-- The `main` pipeline (lines 219 to 233) after both input files are read
into line lists: selector, empty-selection abort, extractor, empty-result
abort, writer.  An `Except.error` is a `sys.exit(1)` or an uncaught
exception; the output file contents exist only in the `Except.ok` case. -/
def runMain (matrix fasta : List String) (top : Option ℤ) (minp : ℤ) :
    Except String (List String) :=
  match parse_protein_matrix matrix top minp with
  | Except.error e => Except.error e
  | Except.ok ids =>
    if ids = ∅ then Except.error "No proteins selected"
    else
      match extract_fasta_entries ids fasta with
      | Except.error e => Except.error e
      | Except.ok (es, _) =>
        if es = [] then Except.error "No FASTA entries found"
        else Except.ok (write_minimal_fasta es)

/-- A line that the scan treats as a record marker: it starts with `>` after
the `rstrip`. -/
def isMarkerLine (l : String) : Bool :=
  pyStartsWith '>' (pyRstrip l)

/-- The source lines lying strictly between the marker line at position `i`
and the next marker line (or end of input). -/
def blockAfter (lines : List String) (i : ℕ) : List String :=
  (lines.drop (i + 1)).takeWhile (fun l => !isMarkerLine l)

/-- Provenance of one stored entry: some marker line of the source carries
its identifier, its header is that line after `rstrip`, and its sequence is
the concatenation of the `rstrip`-ed non-marker lines of the block that
follows. -/
def entryOrigin (lines : List String) (e : FastaEntry) : Prop :=
  ∃ i l, lines.get? i = some l ∧ isMarkerLine l = true ∧
    parseId (pyRstrip l) = some e.1 ∧ e.2.1 = pyRstrip l ∧
    e.2.2 = strJoin ((blockAfter lines i).map pyRstrip)

/-- Modelled from the words of claim C1: trailing line-end trimming alone,
removing one final `\n` or `\r\n` and nothing else.  Written from the claim
text, to compare with the `rstrip` the code performs. -/
def dropLineEnd (s : String) : String :=
  String.mk (match s.data.reverse with
    | '\n' :: '\x0d' :: rest => rest.reverse
    | '\n' :: rest => rest.reverse
    | cs => cs.reverse)

/-- Intermediate provenance statement for the scan loop: the entry either
comes from finalising the record currently open (its remaining sequence
lines are the leading non-marker lines of the unread input), or from a
marker line inside the unread input. -/
def scanOrigin (ls : List String) (cur : Option (String × String))
    (seq : List String) (e : FastaEntry) : Prop :=
  (∃ cid hdr, cur = some (cid, hdr) ∧ e.1 = cid ∧ e.2.1 = hdr ∧
    e.2.2 = strJoin (seq ++ (ls.takeWhile (fun l => !isMarkerLine l)).map pyRstrip)) ∨
  entryOrigin ls e

theorem parseRowFields_kept (cols : MatrixCols) (minp : ℤ) (fields : List String)
    (r : Row) (h : parseRowFields cols minp fields = Except.ok (some r)) :
    minp ≤ r.nseq := by
  unfold parseRowFields at h
  split at h
  · exact absurd h (by simp)
  · split at h
    · exact absurd h (by simp)
    · split at h
      · exact absurd h (by simp)
      · rename_i n _
        split at h
        · exact absurd h (by simp)
        · rename_i hn
          simp only [Except.ok.injEq, Option.some.injEq] at h
          subst h
          exact not_lt.mp hn

theorem parseRows_nseq_ge (cols : MatrixCols) (minp : ℤ) :
    ∀ ls rows, parseRows cols minp ls = Except.ok rows → ∀ r ∈ rows, minp ≤ r.nseq := by
  intro ls
  induction ls with
  | nil =>
    intro rows h r hr
    simp only [parseRows, Except.ok.injEq] at h
    subst h
    cases hr
  | cons l ls ih =>
    intro rows h r hr
    simp only [parseRows] at h
    cases hpr : parseRow cols minp l with
    | error e =>
      rw [hpr] at h
      cases h
    | ok o =>
      rw [hpr] at h
      cases o with
      | none => exact ih rows h r hr
      | some r0 =>
        cases hrs : parseRows cols minp ls with
        | error e =>
          rw [hrs] at h
          cases h
        | ok rs =>
          rw [hrs] at h
          simp only [Except.ok.injEq] at h
          subst h
          rcases hr with _ | hr
          · exact parseRowFields_kept cols minp _ _ hpr
          · exact ih rs hrs r (by assumption)

theorem selectedRows_subset (rows : List Row) (top : Option ℤ) :
    ∀ x ∈ selectedRows rows top, x ∈ rows.enum := by
  intro x hx
  unfold selectedRows at hx
  have hsort : ∀ y ∈ List.insertionSort rowSelLE rows.enum, y ∈ rows.enum := by
    intro y hy
    exact (List.mem_insertionSort rowSelLE).mp hy
  rcases top with _ | n
  · exact hsort x hx
  · simp only at hx
    split at hx
    · unfold pySliceTo at hx
      split at hx
      · exact hsort x (List.take_subset _ _ hx)
      · exact hsort x (List.take_subset _ _ hx)
    · exact hsort x hx

theorem enumFrom_mem_snd {α : Type} :
    ∀ (k : ℕ) (l : List α) (x : ℕ × α), x ∈ l.enumFrom k → x.2 ∈ l := by
  intro k l
  induction l generalizing k with
  | nil =>
    intro x hx
    cases hx
  | cons a as ih =>
    intro x hx
    rcases hx with _ | hx
    · exact List.mem_cons_self _ _
    · exact List.mem_cons_of_mem _ (ih (k + 1) x (by assumption))

theorem enum_mem_snd {α : Type} (l : List α) (x : ℕ × α) (hx : x ∈ l.enum) :
    x.2 ∈ l :=
  enumFrom_mem_snd 0 l x hx

/-- C5: every row whose group identifiers the selector expands into the
selected key set passed the minimum-peptides threshold: `parse_protein_matrix`
drops a row with `N.Sequences` below `min_peptides` before ranking, so no
ranking value can bring it back. -/
theorem selected_rows_pass_threshold (cols : MatrixCols) (minp : ℤ)
    (ls : List String) (rows : List Row) (top : Option ℤ)
    (h : parseRows cols minp ls = Except.ok rows) :
    ∀ x ∈ selectedRows rows top, minp ≤ x.2.nseq := by
  intro x hx
  exact parseRows_nseq_ge cols minp ls rows h x.2
    (enum_mem_snd rows x (selectedRows_subset rows top x hx))

theorem selected_rows_pass_threshold_witness :
    (2 : ℤ) ≤ ((0, ⟨"P1", rowMean (pySplit '\t' (pyStrip "P1\t5\tx")) [2], 5⟩) :
      ℕ × Row).2.nseq :=
  selected_rows_pass_threshold ⟨0, 1, [2]⟩ 2 ["P1\t5\tx"]
    [⟨"P1", rowMean (pySplit '\t' (pyStrip "P1\t5\tx")) [2], 5⟩] none rfl
    (0, ⟨"P1", rowMean (pySplit '\t' (pyStrip "P1\t5\tx")) [2], 5⟩)
    (List.Mem.head _)

/-- C10: identifier extraction from a marker line is not total.  A marker
line that is just `>` (or `>` followed only by whitespace, which the
`rstrip` removes), and a marker line whose second pipe field is empty or
whitespace such as `>sp||NAME`, make `extract_fasta_entries` raise an
uncaught `IndexError` instead of skipping or reporting the record, whatever
the selected set is. -/
theorem extract_crashes_on_degenerate_marker (ids : Finset String) :
    extract_fasta_entries ids [">"] =
        Except.error "IndexError: list index out of range" ∧
    extract_fasta_entries ids ["> "] =
        Except.error "IndexError: list index out of range" ∧
    extract_fasta_entries ids [">sp||NAME", "AAA"] =
        Except.error "IndexError: list index out of range" :=
  ⟨rfl, rfl, rfl⟩

/-- C8: when the selected key set is empty after filtering and expansion the
run aborts with `sys.exit(1)` before the extractor or writer can run: the
same error results for every sequence file, and no output lines exist. -/
theorem empty_selection_aborts (matrix : List String) (top : Option ℤ)
    (minp : ℤ) (h : parse_protein_matrix matrix top minp = Except.ok ∅) :
    ∀ fasta, runMain matrix fasta top minp = Except.error "No proteins selected" := by
  intro fasta
  unfold runMain
  rw [h]
  simp

theorem empty_selection_aborts_witness :
    runMain ["Protein.Group\tN.Sequences\tS1.dia", "P1\t1\t3"] [">sp|P1|X", "AAA"]
      none 2 = Except.error "No proteins selected" :=
  empty_selection_aborts ["Protein.Group\tN.Sequences\tS1.dia", "P1\t1\t3"] none 2
    rfl [">sp|P1|X", "AAA"]

theorem parseRowFields_error_iff (cols : MatrixCols) (minp : ℤ)
    (fields : List String) :
    (∃ e, parseRowFields cols minp fields = Except.error e) ↔
      fields.get? cols.proteinCol = none ∨ fields.get? cols.nSeqCol = none ∨
        ∃ t, fields.get? cols.nSeqCol = some t ∧ pyInt t = none := by
  unfold parseRowFields
  rcases hp : fields.get? cols.proteinCol with _ | pid
  · simp [hp]
  · rcases hn : fields.get? cols.nSeqCol with _ | t
    · simp [hp, hn]
    · rcases hi : pyInt t with _ | n
      · simp [hp, hn, hi]
      · simp only [hp, hn, hi]
        constructor
        · rintro ⟨e, he⟩
          split at he <;> cases he
        · rintro (hc | hc | ⟨t2, ht2, hi2⟩)
          · cases hc
          · cases hc
          · injection ht2 with ht
            rw [← ht, hi] at hi2
            cases hi2

theorem parseRowFields_skip_iff (cols : MatrixCols) (minp : ℤ)
    (fields : List String) :
    parseRowFields cols minp fields = Except.ok none ↔
      ∃ pid t n, fields.get? cols.proteinCol = some pid ∧
        fields.get? cols.nSeqCol = some t ∧ pyInt t = some n ∧ n < minp := by
  unfold parseRowFields
  rcases hp : fields.get? cols.proteinCol with _ | pid
  · simp [hp]
  · rcases hn : fields.get? cols.nSeqCol with _ | t
    · simp [hp, hn]
    · rcases hi : pyInt t with _ | n
      · simp [hp, hn, hi]
      · simp only [hp, hn, hi]
        constructor
        · intro he
          split at he
          · rename_i hlt
            exact ⟨pid, t, n, rfl, rfl, hi, hlt⟩
          · cases he
        · rintro ⟨pid2, t2, n2, hp2, ht2, hi2, hlt⟩
          injection ht2 with ht
          rw [← ht, hi] at hi2
          injection hi2 with hn2
          simp [hn2, hlt]

/-- C9: a sample value that is missing (`IndexError` on the field), empty, or
rejected by `float()` is coerced to zero in the mean, and it can neither drop
the row nor fail the run: `parseRowFields` raises exactly on a bad protein or
`N.Sequences` field, and skips exactly on a low `N.Sequences` count, so the
sample columns never decide either outcome. -/
theorem malformed_intensity_zero (fields : List String) (i : ℕ)
    (cols : MatrixCols) (minp : ℤ)
    (h : fields.get? i = none ∨ fields.get? i = some "" ∨
      ∃ s, fields.get? i = some s ∧ pyFloat s = none) :
    readIntensity fields i = 0 ∧
    ((∃ e, parseRowFields cols minp fields = Except.error e) ↔
      fields.get? cols.proteinCol = none ∨ fields.get? cols.nSeqCol = none ∨
        ∃ t, fields.get? cols.nSeqCol = some t ∧ pyInt t = none) ∧
    (parseRowFields cols minp fields = Except.ok none ↔
      ∃ pid t n, fields.get? cols.proteinCol = some pid ∧
        fields.get? cols.nSeqCol = some t ∧ pyInt t = some n ∧ n < minp) := by
  refine ⟨?_, parseRowFields_error_iff cols minp fields,
    parseRowFields_skip_iff cols minp fields⟩
  unfold readIntensity
  rcases h with h | h | ⟨s, hs, hf⟩
  · rw [h]
  · rw [h]
    simp
  · rw [hs]
    rcases eq_or_ne s "" with he | he
    · simp [he]
    · simp [he, hf]

theorem malformed_intensity_zero_witness :
    readIntensity ["P1", "5", "x"] 2 = 0 ∧
    ((∃ e, parseRowFields ⟨0, 1, [2]⟩ 2 ["P1", "5", "x"] = Except.error e) ↔
      (["P1", "5", "x"] : List String).get? 0 = none ∨
        (["P1", "5", "x"] : List String).get? 1 = none ∨
        ∃ t, (["P1", "5", "x"] : List String).get? 1 = some t ∧ pyInt t = none) ∧
    (parseRowFields ⟨0, 1, [2]⟩ 2 ["P1", "5", "x"] = Except.ok none ↔
      ∃ pid t n, (["P1", "5", "x"] : List String).get? 0 = some pid ∧
        (["P1", "5", "x"] : List String).get? 1 = some t ∧ pyInt t = some n ∧
        n < 2) :=
  malformed_intensity_zero ["P1", "5", "x"] 2 ⟨0, 1, [2]⟩ 2
    (Or.inr (Or.inr ⟨"x", rfl, rfl⟩))

/-- C3 amended: the selected key set holds exactly the whitespace-stripped
pieces of the semicolon-split group fields of the kept rows — all of them,
empty pieces included.  In particular the empty string IS a member whenever
some kept group field is empty or has a leading, trailing or doubled
semicolon; the code never filters empty pieces out. -/
theorem expandIds_mem_iff (sel : List (ℕ × Row)) (x : String) :
    x ∈ expandIds sel ↔ ∃ r ∈ sel, x ∈ (pySplit ';' r.2.group).map pyStrip := by
  unfold expandIds
  simp [List.mem_flatMap]

/-- C3 counterexample: one kept row whose group field is `P1;` produces the
selected set `{P1, ""}`: the trailing semicolon yields an empty piece and the
code inserts it, so the empty string is a member of the selected key set,
against the claim that only non-empty pieces are inserted. -/
theorem empty_string_selected :
    parse_protein_matrix ["Protein.Group\tN.Sequences\tS1.dia", "P1;\t5\tx"] none 2 =
      Except.ok {"P1", ""} ∧ "" ∈ ({"P1", ""} : Finset String) := by
  constructor
  · rfl
  · decide

theorem chunksGo_nil (w fuel : ℕ) : chunksGo w fuel [] = [] := by
  cases fuel <;> rfl

theorem chunksGo_join (w : ℕ) (hw : 0 < w) :
    ∀ (fuel : ℕ) (cs : List Char), cs.length ≤ fuel →
      strJoin (chunksGo w fuel cs) = String.mk cs := by
  intro fuel
  induction fuel with
  | zero =>
    intro cs hcs
    rw [List.length_eq_zero.mp (Nat.le_zero.mp hcs)]
    rfl
  | succ fuel ih =>
    intro cs hcs
    cases cs with
    | nil => rfl
    | cons c cs =>
      show String.mk ((c :: cs).take w) ++ strJoin (chunksGo w fuel ((c :: cs).drop w)) = _
      rw [ih ((c :: cs).drop w) ?_]
      · show String.mk ((c :: cs).take w ++ (c :: cs).drop w) = _
        rw [List.take_append_drop]
      · have hlen : ((c :: cs).drop w).length = (c :: cs).length - w := by
          rw [List.length_drop]
        rw [hlen]
        have h1 : (c :: cs).length ≤ fuel + 1 := hcs
        omega

theorem chunksGo_len (w : ℕ) (hw : 0 < w) :
    ∀ (fuel : ℕ) (cs : List Char), ∀ l ∈ chunksGo w fuel cs,
      1 ≤ l.length ∧ l.length ≤ w := by
  intro fuel
  induction fuel with
  | zero =>
    intro cs l hl
    cases hl
  | succ fuel ih =>
    intro cs l hl
    cases cs with
    | nil => cases hl
    | cons c cs =>
      rcases hl with _ | hl
      · constructor
        · show 1 ≤ ((c :: cs).take w).length
          rw [List.length_take]
          simp only [List.length_cons]
          omega
        · show ((c :: cs).take w).length ≤ w
          rw [List.length_take]
          omega
      · exact ih ((c :: cs).drop w) l (by assumption)

theorem chunksGo_full (w : ℕ) :
    ∀ (fuel : ℕ) (cs : List Char) (i : ℕ) (l : String),
      i + 1 < (chunksGo w fuel cs).length → (chunksGo w fuel cs).get? i = some l →
      l.length = w := by
  intro fuel
  induction fuel with
  | zero =>
    intro cs i l hi _
    cases hi
  | succ fuel ih =>
    intro cs i l hi hg
    cases cs with
    | nil => cases hi
    | cons c cs =>
      cases i with
      | zero =>
        have hl : l = String.mk ((c :: cs).take w) := by
          have : some (String.mk ((c :: cs).take w)) = some l := hg
          injection this with h
          exact h.symm
        subst hl
        show ((c :: cs).take w).length = w
        rw [List.length_take]
        have hrest : chunksGo w fuel ((c :: cs).drop w) ≠ [] := by
          intro hnil
          rw [show chunksGo w (fuel + 1) (c :: cs) =
            String.mk ((c :: cs).take w) :: chunksGo w fuel ((c :: cs).drop w) from rfl,
            hnil] at hi
          simp at hi
        have hdrop : (c :: cs).drop w ≠ [] := by
          intro hnil
          rw [hnil] at hrest
          exact hrest (chunksGo_nil w fuel)
        have hlen : w < (c :: cs).length := by
          by_contra hle
          exact hdrop (List.drop_eq_nil_iff.mpr (by omega))
        omega
      | succ j =>
        have hlen : (chunksGo w (fuel + 1) (c :: cs)).length =
            (chunksGo w fuel ((c :: cs).drop w)).length + 1 := rfl
        exact ih ((c :: cs).drop w) j l (by omega) hg

/-- C6 amended: for every record, the written sequence lines concatenate back
to the record's sequence, every line holds between 1 and 60 characters,
every line before the last holds exactly 60 — and a record whose sequence is
empty gets NO sequence lines at all (the claim's final 1-to-60-character
line exists only when the sequence is non-empty). -/
theorem wrap60_spec (s : String) :
    strJoin (wrap60 s) = s ∧
    (∀ l ∈ wrap60 s, 1 ≤ l.length ∧ l.length ≤ 60) ∧
    (∀ i l, i + 1 < (wrap60 s).length → (wrap60 s).get? i = some l →
      l.length = 60) ∧
    (wrap60 s = [] ↔ s = "") := by
  refine ⟨?_, ?_, ?_, ?_⟩
  · have h := chunksGo_join 60 (by omega) s.data.length s.data le_rfl
    rw [show String.mk s.data = s from by cases s; rfl] at h
    exact h
  · exact chunksGo_len 60 (by omega) s.data.length s.data
  · intro i l hi hg
    exact chunksGo_full 60 s.data.length s.data i l hi hg
  · constructor
    · intro h
      cases s with
      | mk data =>
        cases data with
        | nil => rfl
        | cons c cs =>
          rw [show wrap60 (String.mk (c :: cs)) =
            String.mk ((c :: cs).take 60) :: chunksGo 60 cs.length ((c :: cs).drop 60)
            from rfl] at h
          exact List.noConfusion h
    · intro h
      rw [h]
      rfl

theorem wrap60_spec_witness :
    strJoin (wrap60 (String.mk (List.replicate 61 'A'))) =
        String.mk (List.replicate 61 'A') ∧
    (1 ≤ (String.mk (List.replicate 60 'A')).length ∧
      (String.mk (List.replicate 60 'A')).length ≤ 60) ∧
    (String.mk (List.replicate 60 'A')).length = 60 ∧
    (wrap60 "" = [] ↔ ("" : String) = "") :=
  ⟨(wrap60_spec (String.mk (List.replicate 61 'A'))).1,
    (wrap60_spec (String.mk (List.replicate 61 'A'))).2.1
      (String.mk (List.replicate 60 'A')) (by decide),
    (wrap60_spec (String.mk (List.replicate 61 'A'))).2.2.1 0
      (String.mk (List.replicate 60 'A')) (by decide) (by decide),
    (wrap60_spec "").2.2.2⟩

/-- C6 counterexample: a record whose stored sequence is empty is written
with no sequence lines at all, so it has no final sequence line of length
between 1 and 60.  Such a record is reachable: a marker line immediately
followed by the next marker stores the empty sequence. -/
theorem empty_sequence_has_no_final_line :
    write_minimal_fasta [("P1", ">sp|P1|X", "")] = [">sp|P1|X"] ∧
    wrap60 "" = [] ∧
    extract_fasta_entries {"P1"} [">sp|P1|X", ">sp|P2|Y", "AAA"] =
      Except.ok ([("P1", ">sp|P1|X", "")], 1) := by
  refine ⟨?_, rfl, ?_⟩
  · rfl
  · rfl

theorem char_toNat_inj {a b : Char} (h : a.toNat = b.toNat) : a = b :=
  Char.ext (UInt32.ext h)

theorem lexLeb_total : ∀ a b : List Char, lexLeb a b = true ∨ lexLeb b a = true := by
  intro a
  induction a with
  | nil =>
    intro b
    exact Or.inl rfl
  | cons x xs ih =>
    intro b
    cases b with
    | nil => exact Or.inr rfl
    | cons y ys =>
      by_cases hxy : x.toNat < y.toNat
      · exact Or.inl (by simp [lexLeb, hxy])
      · by_cases hyx : y.toNat < x.toNat
        · exact Or.inr (by simp [lexLeb, hyx])
        · have heq : x.toNat = y.toNat := by omega
          rcases ih ys with h | h
          · exact Or.inl (by simp [lexLeb, hxy, heq, h])
          · exact Or.inr (by simp [lexLeb, hyx, heq.symm, h])

theorem lexLeb_trans :
    ∀ a b c : List Char, lexLeb a b = true → lexLeb b c = true →
      lexLeb a c = true := by
  intro a
  induction a with
  | nil =>
    intro b c _ _
    rfl
  | cons x xs ih =>
    intro b c hab hbc
    cases b with
    | nil => simp [lexLeb] at hab
    | cons y ys =>
      cases c with
      | nil => simp [lexLeb] at hbc
      | cons z zs =>
        simp only [lexLeb] at hab hbc ⊢
        by_cases hxy : x.toNat < y.toNat
        · by_cases hyz : y.toNat < z.toNat
          · simp [show x.toNat < z.toNat from by omega]
          · rcases (by simpa [hyz] using hbc :
                (if y.toNat = z.toNat then lexLeb ys zs else false) = true) with h2
            by_cases hyz2 : y.toNat = z.toNat
            · simp [show x.toNat < z.toNat from by omega]
            · simp [hyz2] at h2
        · by_cases hxy2 : x.toNat = y.toNat
          · by_cases hyz : y.toNat < z.toNat
            · simp [show x.toNat < z.toNat from by omega]
            · by_cases hyz2 : y.toNat = z.toNat
              · have hxz : ¬ x.toNat < z.toNat := by omega
                have hxz2 : x.toNat = z.toNat := by omega
                rw [if_neg hxz, if_pos hxz2]
                exact ih ys zs (by simpa [hxy, hxy2] using hab)
                  (by simpa [hyz, hyz2] using hbc)
              · simp [hyz, hyz2] at hbc
          · simp [hxy, hxy2] at hab

theorem lexLeb_antisymm :
    ∀ a b : List Char, lexLeb a b = true → lexLeb b a = true → a = b := by
  intro a
  induction a with
  | nil =>
    intro b _ hba
    cases b with
    | nil => rfl
    | cons y ys => simp [lexLeb] at hba
  | cons x xs ih =>
    intro b hab hba
    cases b with
    | nil => simp [lexLeb] at hab
    | cons y ys =>
      simp only [lexLeb] at hab hba
      by_cases hxy : x.toNat < y.toNat
      · simp [show ¬ y.toNat < x.toNat from by omega,
          show ¬ y.toNat = x.toNat from by omega] at hba
      · by_cases hxy2 : x.toNat = y.toNat
        · have hx : x = y := char_toNat_inj hxy2
          subst hx
          rw [ih ys (by simpa [hxy] using hab) (by simpa [hxy] using hba)]
        · simp [hxy, hxy2] at hab

instance : IsTotal String strLe :=
  ⟨fun a b => lexLeb_total a.data b.data⟩

instance : IsTrans String strLe :=
  ⟨fun a b c => lexLeb_trans a.data b.data c.data⟩

theorem strLe_antisymm (a b : String) (h1 : strLe a b) (h2 : strLe b a) :
    a = b := by
  cases a with
  | mk da =>
    cases b with
    | mk db =>
      exact congrArg String.mk (lexLeb_antisymm da db h1 h2)

/-- C7: records are written in strictly ascending identifier order, and no
identifier occurs twice: `write_minimal_fasta` iterates over
`sorted(entries.keys())`, the keys of a dict are pairwise distinct, and
Python `sorted` on strings orders them by code points. -/
theorem output_ids_sorted (entries : List FastaEntry)
    (hnd : (entries.map Prod.fst).Nodup) :
    (List.insertionSort strLe (entries.map Prod.fst)).Pairwise strLt ∧
    (List.insertionSort strLe (entries.map Prod.fst)).Nodup := by
  have hs : (List.insertionSort strLe (entries.map Prod.fst)).Sorted strLe :=
    List.sorted_insertionSort strLe _
  have hperm := List.perm_insertionSort strLe (entries.map Prod.fst)
  have hnd2 : (List.insertionSort strLe (entries.map Prod.fst)).Nodup :=
    hperm.nodup_iff.mpr hnd
  refine ⟨?_, hnd2⟩
  exact (List.Pairwise.and hs hnd2).imp (fun h => ⟨h.1, h.2⟩)

theorem output_ids_sorted_witness :
    (List.insertionSort strLe
      ([("P2", ">sp|P2|B", "QQ"), ("P1", ">sp|P1|A", "RR")].map Prod.fst)).Pairwise
        strLt ∧
    (List.insertionSort strLe
      ([("P2", ">sp|P2|B", "QQ"), ("P1", ">sp|P1|A", "RR")].map Prod.fst)).Nodup :=
  output_ids_sorted [("P2", ">sp|P2|B", "QQ"), ("P1", ">sp|P1|A", "RR")] (by decide)

theorem enum_fst_inj {α : Type} (l : List α) (x y : ℕ × α)
    (hx : x ∈ l.enum) (hy : y ∈ l.enum) (hfst : x.1 = y.1) : x = y :=
  List.inj_on_of_nodup_map (List.nodup_enum_map_fst l) hx hy hfst

/-- C2 amended: for a positive `--top N` (with N = 0 Python truthiness makes
the flag behave as if absent, see the counterexample) and at least N
threshold-passing rows, the selection keeps exactly N tagged rows, pairwise
distinct, all of them passing rows, and every kept row ranks strictly above
every passing row left out: strictly larger mean, or equal mean and earlier
original position — the stable descending sort of line 83. -/
theorem top_selection (rows : List Row) (N : ℤ) (hN : 1 ≤ N)
    (hcount : N ≤ (rows.length : ℤ)) :
    (selectedRows rows (some N)).length = N.toNat ∧
    (selectedRows rows (some N)).Nodup ∧
    (∀ x ∈ selectedRows rows (some N), x ∈ rows.enum) ∧
    (∀ x ∈ selectedRows rows (some N), ∀ y ∈ rows.enum,
      y ∉ selectedRows rows (some N) →
        y.2.mean < x.2.mean ∨ (x.2.mean = y.2.mean ∧ x.1 < y.1)) := by
  have henum : rows.enum.length = rows.length := List.enum_length
  have hranked : (List.insertionSort rowSelLE rows.enum).length = rows.length := by
    rw [List.length_insertionSort, henum]
  have hnd : (List.insertionSort rowSelLE rows.enum).Nodup :=
    (List.perm_insertionSort rowSelLE rows.enum).nodup_iff.mpr
      ((List.nodup_enum_map_fst rows).of_map)
  have hsorted : (List.insertionSort rowSelLE rows.enum).Sorted rowSelLE :=
    List.sorted_insertionSort rowSelLE rows.enum
  have hmemr : ∀ z ∈ List.insertionSort rowSelLE rows.enum, z ∈ rows.enum :=
    fun z hz => (List.mem_insertionSort rowSelLE).mp hz
  by_cases hlt : N < (rows.length : ℤ)
  · have hsel : selectedRows rows (some N) =
        (List.insertionSort rowSelLE rows.enum).take N.toNat := by
      simp only [selectedRows, pySliceTo]
      rw [if_pos ⟨by omega, hlt⟩, if_pos (by omega)]
    rw [hsel]
    have htdlen : ((List.insertionSort rowSelLE rows.enum).take N.toNat).length =
        N.toNat := by
      rw [List.length_take, hranked]
      omega
    refine ⟨htdlen, hnd.sublist (List.take_sublist _ _), ?_, ?_⟩
    · intro x hx
      exact hmemr x (List.take_subset _ _ hx)
    · intro x hx y hy hyn
      have hymem : y ∈ List.insertionSort rowSelLE rows.enum :=
        (List.mem_insertionSort rowSelLE).mpr hy
      have hydrop : y ∈ (List.insertionSort rowSelLE rows.enum).drop N.toNat := by
        rw [← List.take_append_drop N.toNat (List.insertionSort rowSelLE rows.enum)]
          at hymem
        rcases List.mem_append.mp hymem with h | h
        · exact absurd h hyn
        · exact h
      have hpair := (List.pairwise_append.mp (show
          List.Pairwise rowSelLE
            ((List.insertionSort rowSelLE rows.enum).take N.toNat ++
              (List.insertionSort rowSelLE rows.enum).drop N.toNat) by
        rw [List.take_append_drop N.toNat (List.insertionSort rowSelLE rows.enum)]
        exact hsorted)).2.2
      have hxy : rowSelLE x y := hpair x hx y hydrop
      rcases hxy with h | ⟨h1, h2⟩
      · exact Or.inl h
      · refine Or.inr ⟨h1, lt_of_le_of_ne h2 ?_⟩
        intro hfst
        have hxmem : x ∈ rows.enum := hmemr x (List.take_subset _ _ hx)
        have : x = y := enum_fst_inj rows x y hxmem hy hfst
        rw [this] at hx
        exact hyn hx
  · have hsel : selectedRows rows (some N) = List.insertionSort rowSelLE rows.enum := by
      simp only [selectedRows]
      rw [if_neg]
      intro hcond
      exact hlt hcond.2
    rw [hsel]
    refine ⟨by rw [hranked]; omega, hnd, hmemr, ?_⟩
    intro x hx y hy hyn
    exact absurd ((List.mem_insertionSort rowSelLE).mpr hy) hyn

theorem top_selection_witness :
    ((0, (⟨"A", 1, 3⟩ : Row)) : ℕ × Row).2.mean <
        ((1, (⟨"B", 5, 3⟩ : Row)) : ℕ × Row).2.mean ∨
      (((1, (⟨"B", 5, 3⟩ : Row)) : ℕ × Row).2.mean =
          ((0, (⟨"A", 1, 3⟩ : Row)) : ℕ × Row).2.mean ∧
        ((1, (⟨"B", 5, 3⟩ : Row)) : ℕ × Row).1 <
          ((0, (⟨"A", 1, 3⟩ : Row)) : ℕ × Row).1) :=
  (top_selection [⟨"A", 1, 3⟩, ⟨"B", 5, 3⟩, ⟨"C", 5, 3⟩] 2 (by decide)
      (by decide)).2.2.2
    (1, ⟨"B", 5, 3⟩) (by decide) (0, ⟨"A", 1, 3⟩) (by decide) (by decide)

/-- C2 counterexample: one threshold-passing row and `--top 0`.  At least 0
rows pass, so the claim as stated requires the selection to be exactly the 0
highest-ranked rows, an empty selection and an empty set; but `if top_n and
top_n < len(protein_data)` treats `0` as falsy (flag absent), every row is
kept, and the selected set is `{P1}`. -/
theorem top_zero_selects_all :
    parse_protein_matrix ["Protein.Group\tN.Sequences\tS1.dia", "P1\t5\tx"]
        (some 0) 2 = Except.ok {"P1"} ∧
    (selectedRows [⟨"P1", rowMean (pySplit '\t' (pyStrip "P1\t5\tx")) [2], 5⟩]
        (some 0)).length = 1 := by
  constructor
  · rfl
  · rfl

theorem insertEntry_mem (es : List FastaEntry) (cid hdr seq : String) :
    ∀ e ∈ insertEntry es cid hdr seq, e ∈ es ∨ e = (cid, hdr, seq) := by
  induction es with
  | nil =>
    intro e he
    simp only [insertEntry] at he
    exact Or.inr (List.mem_singleton.mp he)
  | cons a as ih =>
    intro e he
    by_cases h : a.1 = cid
    · rw [show insertEntry (a :: as) cid hdr seq = (cid, hdr, seq) :: as from by
        simp [insertEntry, h]] at he
      rcases he with _ | he
      · exact Or.inr rfl
      · exact Or.inl (List.mem_cons_of_mem a (by assumption))
    · rw [show insertEntry (a :: as) cid hdr seq = a :: insertEntry as cid hdr seq
        from by simp [insertEntry, h]] at he
      rcases he with _ | he
      · exact Or.inl (List.mem_cons_self a as)
      · rcases ih e (by assumption) with h2 | h2
        · exact Or.inl (List.mem_cons_of_mem a h2)
        · exact Or.inr h2

theorem finalizeEntry_mem (ids : Finset String) (cur : Option (String × String))
    (seq : List String) (es : List FastaEntry) (n : ℕ) :
    ∀ e ∈ (finalizeEntry ids cur seq es n).1, e ∈ es ∨
      ∃ cid hdr, cur = some (cid, hdr) ∧ e = (cid, hdr, strJoin seq) := by
  intro e he
  cases cur with
  | none => exact Or.inl he
  | some p =>
    cases p with
    | mk cid hdr =>
      by_cases hmem : cid ∈ ids
      · rw [show (finalizeEntry ids (some (cid, hdr)) seq es n).1 =
          insertEntry es cid hdr (strJoin seq) from by
            simp [finalizeEntry, hmem]] at he
        rcases insertEntry_mem es cid hdr (strJoin seq) e he with h | h
        · exact Or.inl h
        · exact Or.inr ⟨cid, hdr, rfl, h⟩
      · rw [show (finalizeEntry ids (some (cid, hdr)) seq es n).1 = es from by
          simp [finalizeEntry, hmem]] at he
        exact Or.inl he

theorem extractGo_cons_marker (ids : Finset String) (cur : Option (String × String))
    (seq : List String) (es0 : List FastaEntry) (n0 : ℕ) (l : String)
    (ls : List String) (hm : pyStartsWith '>' (pyRstrip l) = true) :
    extractGo ids cur seq es0 n0 (l :: ls) =
      match parseId (pyRstrip l) with
      | none => Except.error "IndexError: list index out of range"
      | some cid =>
        extractGo ids (some (cid, pyRstrip l)) []
          (finalizeEntry ids cur seq es0 n0).1 (finalizeEntry ids cur seq es0 n0).2
          ls := by
  simp only [extractGo]
  rw [if_pos hm]

theorem extractGo_cons_seq (ids : Finset String) (cur : Option (String × String))
    (seq : List String) (es0 : List FastaEntry) (n0 : ℕ) (l : String)
    (ls : List String) (hm : ¬ pyStartsWith '>' (pyRstrip l) = true) :
    extractGo ids cur seq es0 n0 (l :: ls) =
      extractGo ids cur (seq ++ [pyRstrip l]) es0 n0 ls := by
  simp only [extractGo]
  rw [if_neg hm]

theorem entryOrigin_cons (l : String) (ls : List String) (e : FastaEntry)
    (h : entryOrigin ls e) : entryOrigin (l :: ls) e := by
  obtain ⟨i, l2, hg, hm2, hpid, hh, hs⟩ := h
  refine ⟨i + 1, l2, hg, hm2, hpid, hh, ?_⟩
  rw [hs]
  simp [blockAfter]

theorem extractGo_origin (ids : Finset String) :
    ∀ (ls : List String) (cur : Option (String × String)) (seq : List String)
      (es0 : List FastaEntry) (n0 : ℕ) (es : List FastaEntry) (n : ℕ),
      extractGo ids cur seq es0 n0 ls = Except.ok (es, n) →
      ∀ e ∈ es, e ∈ es0 ∨ scanOrigin ls cur seq e := by
  intro ls
  induction ls with
  | nil =>
    intro cur seq es0 n0 es n h e he
    have hfin : finalizeEntry ids cur seq es0 n0 = (es, n) := by
      injection h
    rcases finalizeEntry_mem ids cur seq es0 n0 e (by rw [hfin]; exact he)
      with h2 | ⟨cid, hdr, hcur, heq⟩
    · exact Or.inl h2
    · refine Or.inr (Or.inl ⟨cid, hdr, hcur, ?_, ?_, ?_⟩)
    
      · rw [heq]
      · rw [heq]
      · rw [heq]
        simp
  | cons l ls ih =>
    intro cur seq es0 n0 es n h e he
    by_cases hm : pyStartsWith '>' (pyRstrip l) = true
    · rw [extractGo_cons_marker ids cur seq es0 n0 l ls hm] at h
      cases hpid : parseId (pyRstrip l) with
      | none =>
        rw [hpid] at h
        cases h
      | some cid =>
        rw [hpid] at h
        rcases ih (some (cid, pyRstrip l)) [] (finalizeEntry ids cur seq es0 n0).1
          (finalizeEntry ids cur seq es0 n0).2 es n h e he with h2 | h2
        · rcases finalizeEntry_mem ids cur seq es0 n0 e h2
            with h3 | ⟨cid2, hdr2, hcur2, heq2⟩
          · exact Or.inl h3
          · refine Or.inr (Or.inl ⟨cid2, hdr2, hcur2, ?_, ?_, ?_⟩)
            · rw [heq2]
            · rw [heq2]
            · rw [heq2]
              have htw : (l :: ls).takeWhile (fun l2 => !isMarkerLine l2) = [] := by
                simp [List.takeWhile_cons, isMarkerLine, hm]
              rw [htw]
              simp
        · rcases h2 with ⟨cid2, hdr2, hcur2, he1, he2, he3⟩ | h2
          · injection hcur2 with hp
            have hc : cid2 = cid := (congrArg Prod.fst hp).symm
            have hh : hdr2 = pyRstrip l := (congrArg Prod.snd hp).symm
            refine Or.inr (Or.inr ⟨0, l, rfl, ?_, ?_, ?_, ?_⟩)
            · unfold isMarkerLine
              exact hm
            · rw [he1, hc]
              exact hpid
            · rw [he2, hh]
            · rw [he3]
              simp [blockAfter]
          · exact Or.inr (Or.inr (entryOrigin_cons l ls e h2))
    · rw [extractGo_cons_seq ids cur seq es0 n0 l ls hm] at h
      rcases ih cur (seq ++ [pyRstrip l]) es0 n0 es n h e he with h2 | h2
      · exact Or.inl h2
      · rcases h2 with ⟨cid2, hdr2, hcur2, he1, he2, he3⟩ | h2
        · refine Or.inr (Or.inl ⟨cid2, hdr2, hcur2, he1, he2, ?_⟩)
          rw [he3]
          have htw : (l :: ls).takeWhile (fun l2 => !isMarkerLine l2) =
              l :: ls.takeWhile (fun l2 => !isMarkerLine l2) := by
            simp [List.takeWhile_cons, isMarkerLine, hm]
          rw [htw]
          simp [List.append_assoc]
        · exact Or.inr (Or.inr (entryOrigin_cons l ls e h2))

/-- C1 amended: every record in the extractor output originates from some
marker line of the source file: its header is that line after `rstrip`, and
its sequence is the concatenation of all non-marker lines lying between that
marker line and the next marker line (or end of input), each line having all
TRAILING WHITESPACE removed (`line.rstrip()`), not only its line end — see
the counterexample for the difference. -/
theorem extract_entries_from_blocks (ids : Finset String) (lines : List String)
    (es : List FastaEntry) (n : ℕ)
    (h : extract_fasta_entries ids lines = Except.ok (es, n)) :
    ∀ e ∈ es, entryOrigin lines e := by
  intro e he
  rcases extractGo_origin ids lines none [] [] 0 es n h e he with h0 | h0
  · cases h0
  · rcases h0 with ⟨cid, hdr, hcur, _⟩ | h0
    · cases hcur
    · exact h0

theorem extract_entries_from_blocks_witness :
    entryOrigin [">sp|P1|X desc", "AB", "CD", ">sp|P2|Y", "EE"]
      ("P1", ">sp|P1|X desc", "ABCD") :=
  extract_entries_from_blocks {"P1"}
    [">sp|P1|X desc", "AB", "CD", ">sp|P2|Y", "EE"]
    [("P1", ">sp|P1|X desc", "ABCD")] 1 rfl
    ("P1", ">sp|P1|X desc", "ABCD") (List.Mem.head _)

/-- C1 counterexample: source lines `>sp|P1|X` and `AB \n` (a sequence line
with a trailing space before its line end).  The code stores the sequence
`AB`: `line.rstrip()` removes the space along with the line end, while the
claim allows only trailing line-end trimming, which keeps `AB `.  The stored
sequence therefore differs from the claim's concatenation. -/
theorem rstrip_drops_more_than_line_end :
    extract_fasta_entries {"P1"} [">sp|P1|X", "AB \n"] =
      Except.ok ([("P1", ">sp|P1|X", "AB")], 1) ∧
    strJoin ((blockAfter [">sp|P1|X", "AB \n"] 0).map dropLineEnd) = "AB " ∧
    ("AB" : String) ≠ "AB " := by
  refine ⟨rfl, rfl, by decide⟩

theorem insertEntry_keys_mem (es : List FastaEntry) (cid hdr seq : String)
    (h : cid ∈ es.map Prod.fst) :
    (insertEntry es cid hdr seq).map Prod.fst = es.map Prod.fst := by
  induction es with
  | nil => cases h
  | cons a as ih =>
    by_cases ha : a.1 = cid
    · rw [show insertEntry (a :: as) cid hdr seq = (cid, hdr, seq) :: as from by
        simp [insertEntry, ha]]
      simp [ha]
    · rw [show insertEntry (a :: as) cid hdr seq = a :: insertEntry as cid hdr seq
        from by simp [insertEntry, ha]]
      have h2 : cid ∈ as.map Prod.fst := by
        rw [List.map_cons] at h
        rcases List.mem_cons.mp h with h2 | h2
        · exact absurd h2.symm ha
        · exact h2
      simp [ih h2]

theorem insertEntry_keys_not_mem (es : List FastaEntry) (cid hdr seq : String)
    (h : cid ∉ es.map Prod.fst) :
    (insertEntry es cid hdr seq).map Prod.fst = es.map Prod.fst ++ [cid] := by
  induction es with
  | nil => simp [insertEntry]
  | cons a as ih =>
    have ha : ¬ a.1 = cid := by
      intro hh
      exact h (by simp [hh])
    rw [show insertEntry (a :: as) cid hdr seq = a :: insertEntry as cid hdr seq
      from by simp [insertEntry, ha]]
    have h2 : cid ∉ as.map Prod.fst := by
      intro hh
      exact h (by simp [hh])
    simp [ih h2]

theorem insertEntry_length (es : List FastaEntry) (cid hdr seq : String) :
    (insertEntry es cid hdr seq).length ≤ es.length + 1 := by
  by_cases h : cid ∈ es.map Prod.fst
  · have hl := congrArg List.length (insertEntry_keys_mem es cid hdr seq h)
    simp only [List.length_map] at hl
    omega
  · have hl := congrArg List.length (insertEntry_keys_not_mem es cid hdr seq h)
    simp only [List.length_map, List.length_append, List.length_singleton] at hl
    omega

theorem insertEntry_nodup (es : List FastaEntry) (cid hdr seq : String)
    (h : (es.map Prod.fst).Nodup) :
    ((insertEntry es cid hdr seq).map Prod.fst).Nodup := by
  by_cases hm : cid ∈ es.map Prod.fst
  · rw [insertEntry_keys_mem es cid hdr seq hm]
    exact h
  · rw [insertEntry_keys_not_mem es cid hdr seq hm]
    rw [List.nodup_append]
    refine ⟨h, List.nodup_singleton cid, ?_⟩
    intro x hx hxc
    rw [List.mem_singleton.mp hxc] at hx
    exact hm hx

theorem insertEntry_keys_subset (es : List FastaEntry) (cid hdr seq : String) :
    ∀ k ∈ (insertEntry es cid hdr seq).map Prod.fst,
      k ∈ es.map Prod.fst ∨ k = cid := by
  intro k hk
  by_cases hm : cid ∈ es.map Prod.fst
  · rw [insertEntry_keys_mem es cid hdr seq hm] at hk
    exact Or.inl hk
  · rw [insertEntry_keys_not_mem es cid hdr seq hm] at hk
    rcases List.mem_append.mp hk with h2 | h2
    · exact Or.inl h2
    · exact Or.inr (List.mem_singleton.mp h2)

theorem finalizeEntry_facts (ids : Finset String) (cur : Option (String × String))
    (seq : List String) (es : List FastaEntry) (n : ℕ) :
    ((es.map Prod.fst).Nodup → ((finalizeEntry ids cur seq es n).1.map Prod.fst).Nodup) ∧
    ((∀ k ∈ es.map Prod.fst, k ∈ ids) →
      ∀ k ∈ (finalizeEntry ids cur seq es n).1.map Prod.fst, k ∈ ids) ∧
    n ≤ (finalizeEntry ids cur seq es n).2 ∧
    (finalizeEntry ids cur seq es n).1.length + n ≤
      (finalizeEntry ids cur seq es n).2 + es.length := by
  cases cur with
  | none =>
    simp only [finalizeEntry]
    exact ⟨fun h => h, fun h => h, le_refl n, by omega⟩
  | some p =>
    cases p with
    | mk cid hdr =>
      by_cases hmem : cid ∈ ids
      · simp only [finalizeEntry, if_pos hmem]
        refine ⟨fun h => insertEntry_nodup es cid hdr (strJoin seq) h, ?_, ?_, ?_⟩
        · intro hsub k hk
          rcases insertEntry_keys_subset es cid hdr (strJoin seq) k hk with h2 | h2
          · exact hsub k h2
          · rw [h2]
            exact hmem
        · omega
        · have := insertEntry_length es cid hdr (strJoin seq)
          omega
      · simp only [finalizeEntry, if_neg hmem]
        exact ⟨fun h => h, fun h => h, by omega, by omega⟩

theorem extractGo_keys (ids : Finset String) :
    ∀ (ls : List String) (cur : Option (String × String)) (seq : List String)
      (es0 : List FastaEntry) (n0 : ℕ) (es : List FastaEntry) (n : ℕ),
      extractGo ids cur seq es0 n0 ls = Except.ok (es, n) →
      (es0.map Prod.fst).Nodup → (∀ k ∈ es0.map Prod.fst, k ∈ ids) →
      (es.map Prod.fst).Nodup ∧ (∀ k ∈ es.map Prod.fst, k ∈ ids) ∧
        n0 ≤ n ∧ es.length + n0 ≤ n + es0.length := by
  intro ls
  induction ls with
  | nil =>
    intro cur seq es0 n0 es n h hnd hsub
    have hfin : finalizeEntry ids cur seq es0 n0 = (es, n) := by injection h
    obtain ⟨f1, f2, f3, f4⟩ := finalizeEntry_facts ids cur seq es0 n0
    rw [hfin] at f1 f2 f3 f4
    exact ⟨f1 hnd, f2 hsub, f3, f4⟩
  | cons l ls ih =>
    intro cur seq es0 n0 es n h hnd hsub
    by_cases hm : pyStartsWith '>' (pyRstrip l) = true
    · rw [extractGo_cons_marker ids cur seq es0 n0 l ls hm] at h
      cases hpid : parseId (pyRstrip l) with
      | none =>
        rw [hpid] at h
        cases h
      | some cid =>
        rw [hpid] at h
        obtain ⟨f1, f2, f3, f4⟩ := finalizeEntry_facts ids cur seq es0 n0
        obtain ⟨g1, g2, g3, g4⟩ := ih (some (cid, pyRstrip l)) []
          (finalizeEntry ids cur seq es0 n0).1 (finalizeEntry ids cur seq es0 n0).2
          es n h (f1 hnd) (f2 hsub)
        exact ⟨g1, g2, by omega, by omega⟩
    · rw [extractGo_cons_seq ids cur seq es0 n0 l ls hm] at h
      exact ih cur (seq ++ [pyRstrip l]) es0 n0 es n h hnd hsub

/-- C4 amended: after the scan the missing set is the set difference of the
selected keys and the matched identifiers, but the warning condition the code
uses is `found_count < len(protein_ids)`, where `found_count` counts every
matched record finalisation, duplicates included.  A warning therefore still
implies some selected key is missing; and when no selected key matched more
than one record (`found_count` equals the number of stored entries), the
warning fires exactly when the difference is non-empty.  With duplicate
records for a selected identifier the warning can be masked even though
other selected keys are missing, so the claim's `if and only if` fails. -/
theorem missing_warning (ids : Finset String) (lines : List String)
    (es : List FastaEntry) (n : ℕ)
    (h : extract_fasta_entries ids lines = Except.ok (es, n)) :
    (n < ids.card → (ids \ (es.map Prod.fst).toFinset).Nonempty) ∧
    (n = es.length →
      (n < ids.card ↔ (ids \ (es.map Prod.fst).toFinset).Nonempty)) := by
  obtain ⟨hnd, hsub, _, hlen⟩ := extractGo_keys ids lines none [] [] 0 es n h
    (by simp) (by simp)
  have hlen2 : es.length ≤ n := by
    simp only [List.length_nil] at hlen
    omega
  have hcard : (es.map Prod.fst).toFinset.card = es.length := by
    rw [List.toFinset_card_of_nodup hnd, List.length_map]
  have hsubF : (es.map Prod.fst).toFinset ⊆ ids := by
    intro k hk
    exact hsub k (List.mem_toFinset.mp hk)
  have hmain : n < ids.card → (ids \ (es.map Prod.fst).toFinset).Nonempty := by
    intro hwarn
    rw [Finset.sdiff_nonempty]
    intro hcontra
    have := Finset.card_le_card hcontra
    omega
  refine ⟨hmain, fun hne => ⟨hmain, ?_⟩⟩
  intro hne2
  obtain ⟨x, hx⟩ := hne2
  have hss : (es.map Prod.fst).toFinset ⊂ ids := by
    rw [Finset.ssubset_def]
    refine ⟨hsubF, ?_⟩
    intro hts
    rcases Finset.mem_sdiff.mp hx with ⟨hx1, hx2⟩
    exact hx2 (hts hx1)
  have := Finset.card_lt_card hss
  omega

theorem missing_warning_witness :
    ((1 : ℕ) < ({"P1", "P2"} : Finset String).card →
      (({"P1", "P2"} : Finset String) \
        ([("P1", ">sp|P1|A", "AAA")].map Prod.fst).toFinset).Nonempty) ∧
    ((1 : ℕ) = [(("P1", ">sp|P1|A", "AAA") : FastaEntry)].length →
      ((1 : ℕ) < ({"P1", "P2"} : Finset String).card ↔
        (({"P1", "P2"} : Finset String) \
          ([("P1", ">sp|P1|A", "AAA")].map Prod.fst).toFinset).Nonempty)) :=
  missing_warning {"P1", "P2"} [">sp|P1|A", "AAA"] [("P1", ">sp|P1|A", "AAA")] 1 rfl

/-- C4 counterexample: selected set `{P1, P2}`; the sequence file holds two
records for P1 and none for P2.  Both finalisations match, so `found_count`
is 2, equal to `len(protein_ids)`, and the warning branch is NOT taken —
although the set difference `{P2}` is non-empty.  Duplicate records for one
selected identifier mask missing identifiers, refuting the claimed
`if and only if` (which the claim asserts to hold even with duplicates). -/
theorem duplicate_masks_missing :
    extract_fasta_entries {"P1", "P2"} [">sp|P1|A", "AAA", ">sp|P1|B", "CCC"] =
      Except.ok ([("P1", ">sp|P1|B", "CCC")], 2) ∧
    ¬ (2 < ({"P1", "P2"} : Finset String).card) ∧
    (({"P1", "P2"} : Finset String) \
      ([("P1", ">sp|P1|B", "CCC")].map Prod.fst).toFinset).Nonempty := by
  refine ⟨rfl, by decide, by decide⟩
